import Mathlib

/-!
# Custom Dict plugin (`main.js`): the "Check Inclusion" command and the hotkey simulation

A shallow embedding of `main.js`.

* A JavaScript string is the list of its UTF-16 code units; one `Char` stands for one
  code unit, so `List.length` is the `length` property and list positions are the `ch`
  offsets of the editor. (A character outside the Basic Multilingual Plane is two code
  units in JavaScript and one `Char` here; string lengths and editor offsets are counted in
  the same unit on both sides.)
* `String.prototype.toLowerCase` / `toUpperCase` belong to the language runtime, not to
  the repository: the embedded functions take them as a `CaseMap` argument, constrained
  only by what ECMAScript guarantees on ASCII text.
* The host objects (editor, vault, notices, global shortcuts, DOM events) are modelled as
  the answers they give and as a trace of the calls the plugin makes on them.
-/

namespace CustomDict

/-- A JavaScript string: the sequence of its code units. -/
abbrev Str := List Char

/-! ## Runtime string primitives -/

/-- ECMAScript `WhiteSpace` and `LineTerminator` code points, the ones removed by
`trim`, `trimStart` and `trimEnd`. -/
def isWhiteSpace (c : Char) : Bool :=
  let n := c.toNat
  n == 0x9 || n == 0xA || n == 0xB || n == 0xC || n == 0xD || n == 0x20 || n == 0xA0 ||
  n == 0x1680 || (0x2000 ≤ n && n ≤ 0x200A) || n == 0x2028 || n == 0x2029 ||
  n == 0x202F || n == 0x205F || n == 0x3000 || n == 0xFEFF

/-- The method `String.prototype.trimStart`. -/
def trimStart (s : Str) : Str := s.dropWhile isWhiteSpace

/-- The method `String.prototype.trimEnd`. -/
def trimEnd (s : Str) : Str := (s.reverse.dropWhile isWhiteSpace).reverse

/-- The method `String.prototype.trim`. -/
def trim (s : Str) : Str := trimEnd (trimStart s)

/-- The method `String.prototype.split` for a one-code-unit separator (both call sites of
`main.js` pass one: `'+'` and `'\n'`). The result always has at least one element. -/
def split (sep : Char) : Str → List Str
  | [] => [[]]
  | c :: cs =>
    if c = sep then [] :: split sep cs
    else match split sep cs with
      | [] => [[c]]
      | l :: ls => (c :: l) :: ls

/-- The method `Array.prototype.join` for a one-code-unit separator. -/
def join (sep : Char) : List Str → Str
  | [] => []
  | [s] => s
  | s :: t :: rest => s ++ sep :: join sep (t :: rest)

/-- The method `String.prototype.includes` (search from position 0): some suffix of `s`
starts with `needle`. -/
def includes (s needle : Str) : Bool :=
  match s with
  | [] => needle.isEmpty
  | c :: cs => needle.isPrefixOf (c :: cs) || includes cs needle

/-- JavaScript truthiness of a string: every string but the empty one. -/
def truthy (s : Str) : Bool := !s.isEmpty

/-- JavaScript truthiness of the result of `Array.prototype.find` on strings:
`undefined` (`none`) and `""` are falsy. -/
def truthyFound : Option Str → Bool
  | none => false
  | some s => truthy s

/-- Template-literal interpolation of the result of `find`. -/
def interpolate : Option Str → Str
  | none => "undefined".toList
  | some s => s

/-- Is every code unit of the string ASCII? -/
def isAscii (s : Str) : Bool := s.all (fun c => c.toNat < 128)

/-- The runtime's `toLowerCase` / `toUpperCase`. They are not code of the repository, so
the embedding takes them as an argument; the two laws are what ECMAScript fixes for
ASCII text (only `A`-`Z`, resp. `a`-`z`, are changed). -/
structure CaseMap where
  toLowerCase : Str → Str
  toUpperCase : Str → Str
  lower_ascii : ∀ s, isAscii s = true → toLowerCase s = s.map Char.toLower
  upper_ascii : ∀ s, isAscii s = true → toUpperCase s = s.map Char.toUpper

/-- Case conversion of the ASCII letters only; it is the runtime's mapping on every
ASCII string. -/
def asciiCaseMap : CaseMap where
  toLowerCase := fun s => s.map Char.toLower
  toUpperCase := fun s => s.map Char.toUpper
  lower_ascii := fun _ _ => rfl
  upper_ascii := fun _ _ => rfl

/-! ## Event init object (`triggerHotkey`, lines 89-99) -/

/-- The JavaScript values that occur in the event init object. -/
inductive Value where
  | undefined
  | bool (b : Bool)
  | string (s : Str)
  deriving DecidableEq, Repr

/-- A plain JavaScript object: its own properties in insertion order. -/
abbrev Obj := List (Str × Value)

/-- Property assignment `o[k] = v`: overwrite an existing property, else append. -/
def Obj.set : Obj → Str → Value → Obj
  | [], k, v => [(k, v)]
  | (k0, v0) :: rest, k, v =>
    if k0 = k then (k0, v) :: rest else (k0, v0) :: Obj.set rest k v

/-- Property read `o[k]`; a missing property reads as `undefined`. -/
def Obj.get : Obj → Str → Value
  | [], _ => Value.undefined
  | (k0, v0) :: rest, k => if k0 = k then v0 else Obj.get rest k

/-- The method `Array.prototype.pop`: the removed last element (`undefined` on an empty
array) and the array that remains. -/
def pop (a : List Str) : Value × List Str :=
  match a.getLast? with
  | none => (Value.undefined, [])
  | some x => (Value.string x, a.dropLast)

/-- Lines 97-99 of `triggerHotkey`, the loop
`modifiers.forEach(modifier => { eventInit[modifier + "Key"] = true })`. -/
def setFlags (modifiers : List Str) (eventInit : Obj) : Obj :=
  modifiers.foldl (fun o modifier => o.set (modifier ++ "Key".toList) (Value.bool true))
    eventInit

/-- Lines 89-99 of `triggerHotkey`: the `eventInit` object built from the descriptor. -/
def buildEventInit (cm : CaseMap) (hotkey : Str) : Obj :=
  let tokens := (split '+' hotkey).map (fun key => cm.toLowerCase (trim key))
  let key := (pop tokens).1
  let modifiers := (pop tokens).2
  let eventInit : Obj :=
    [("key".toList, key), ("bubbles".toList, Value.bool true),
     ("cancelable".toList, Value.bool true)]
  setFlags modifiers eventInit

/-- The fields of a DOM keyboard event that `main.js` reads or sets. -/
structure KeyboardEvent where
  type : Str
  key : Str
  ctrlKey : Bool
  shiftKey : Bool
  altKey : Bool
  metaKey : Bool
  bubbles : Bool
  cancelable : Bool
  deriving DecidableEq, Repr

/-- Conversion of a dictionary member to a boolean (missing member: `false`). -/
def toBoolean : Value → Bool
  | Value.undefined => false
  | Value.bool b => b
  | Value.string s => truthy s

/-- Conversion of the `key` dictionary member to a string (missing member: `""`). -/
def toDOMString : Value → Str
  | Value.undefined => []
  | Value.bool true => "true".toList
  | Value.bool false => "false".toList
  | Value.string s => s

/-- The expression `new KeyboardEvent(type, eventInit)`: the members the constructor
reads from the init dictionary; every other property of the object is ignored. -/
def newKeyboardEvent (type : Str) (eventInit : Obj) : KeyboardEvent :=
  { type := type
    key := toDOMString (eventInit.get "key".toList)
    ctrlKey := toBoolean (eventInit.get "ctrlKey".toList)
    shiftKey := toBoolean (eventInit.get "shiftKey".toList)
    altKey := toBoolean (eventInit.get "altKey".toList)
    metaKey := toBoolean (eventInit.get "metaKey".toList)
    bubbles := toBoolean (eventInit.get "bubbles".toList)
    cancelable := toBoolean (eventInit.get "cancelable".toList) }

/-- Line 101 of `triggerHotkey`: the key-down event built for the descriptor. -/
def hotkeyEvent (cm : CaseMap) (hotkey : Str) : KeyboardEvent :=
  newKeyboardEvent "keydown".toList (buildEventInit cm hotkey)

/-- The four modifiers of a hotkey descriptor. -/
inductive Modifier where
  | ctrl
  | shift
  | alt
  | meta
  deriving DecidableEq, Repr

/-- The name of a modifier as descriptors spell it. -/
def Modifier.name : Modifier → Str
  | Modifier.ctrl => "Ctrl".toList
  | Modifier.shift => "Shift".toList
  | Modifier.alt => "Alt".toList
  | Modifier.meta => "Meta".toList

/-- The event-init member of a modifier. -/
def Modifier.flag : Modifier → Str
  | Modifier.ctrl => "ctrlKey".toList
  | Modifier.shift => "shiftKey".toList
  | Modifier.alt => "altKey".toList
  | Modifier.meta => "metaKey".toList

/-- Does the token spell the modifier, up to ASCII letter case and surrounding
whitespace? -/
def namesModifier (token : Str) (md : Modifier) : Bool :=
  (trim token).map Char.toLower == md.name.map Char.toLower

/-- Does the token spell one of the four modifiers? -/
def isModifierName (token : Str) : Bool :=
  [Modifier.ctrl, Modifier.shift, Modifier.alt, Modifier.meta].any (namesModifier token)

/-- Lines 175-191, the key-capture handler of the settings tab: the descriptor it stores
in `notFoundHotkey`, or `none` when the pressed key is a bare modifier (nothing is
stored and the handler keeps listening). -/
def captureHotkey (cm : CaseMap) (event : KeyboardEvent) : Option Str :=
  let modifiers : List Str :=
    (if event.ctrlKey then ["Ctrl".toList] else []) ++
    (if event.shiftKey then ["Shift".toList] else []) ++
    (if event.altKey then ["Alt".toList] else []) ++
    (if event.metaKey then ["Meta".toList] else [])
  let key := cm.toUpperCase event.key
  if !(["CONTROL".toList, "SHIFT".toList, "ALT".toList, "META".toList].contains key) then
    some (join '+' (modifiers ++ [key]))
  else none

/-! ## Host objects and the trace of calls made on them -/

/-- An editor position `{ line, ch }`. The arithmetic of the plugin can leave the range
of the line (also below zero), so both fields are integers. -/
structure EditorPosition where
  line : Int
  ch : Int
  deriving DecidableEq, Repr

/-- What the host editor answers to the plugin: `getSelection()`, `getCursor('from')`
and `getCursor('to')`. -/
structure Editor where
  getSelection : Str
  cursorFrom : EditorPosition
  cursorTo : EditorPosition

/-- The settings record. -/
structure Settings where
  filePath : Str
  prefixSymbol : Str
  suffixSymbol : Str
  notFoundHotkey : Str

/-- The vault: the text of the file a path resolves to, `none` when
`getAbstractFileByPath` answers `null`. -/
abbrev Vault := Str → Option Str

/-- The calls the plugin makes on its host, in program order. -/
inductive Effect where
  | notice (message : Str) (duration : Option Nat)
  | setSelection (anchor head : EditorPosition)
  | getAbstractFileByPath (path : Str)
  | read (path : Str)
  | register (accelerator : Str)
  | dispatchEvent (event : KeyboardEvent)
  | setTimeoutUnregister (accelerator : Str) (delay : Nat)
  deriving DecidableEq, Repr

/-- Is the call a `new Notice(...)`? -/
def Effect.isNotice : Effect → Bool
  | Effect.notice _ _ => true
  | _ => false

/-- Is the call one of those made by `triggerHotkey`? -/
def Effect.isHotkey : Effect → Bool
  | Effect.register _ => true
  | Effect.dispatchEvent _ => true
  | Effect.setTimeoutUnregister _ _ => true
  | _ => false

/-- Is the call an access to the vault (path lookup or read)? -/
def Effect.isVault : Effect → Bool
  | Effect.getAbstractFileByPath _ => true
  | Effect.read _ => true
  | _ => false

/-- The method `triggerHotkey` (lines 82-108): register the accelerator, dispatch the
synthetic key-down event, schedule the unregistration after 100 ms. -/
def triggerHotkey (cm : CaseMap) (hotkey : Str) : List Effect :=
  [Effect.register hotkey,
   Effect.dispatchEvent (hotkeyEvent cm hotkey),
   Effect.setTimeoutUnregister hotkey 100]

/-- Lines 31-37: the two positions handed to `editor.setSelection`. -/
def trimmedSelection (editor : Editor) : EditorPosition × EditorPosition :=
  let selectedText := editor.getSelection
  let selectionStart := editor.cursorFrom
  let selectionEnd := editor.cursorTo
  let startOffset : Int := (selectedText.length : Int) - ((trimStart selectedText).length : Int)
  let endOffset : Int := (selectedText.length : Int) - ((trimEnd selectedText).length : Int)
  ({ line := selectionStart.line, ch := selectionStart.ch + startOffset },
   { line := selectionEnd.line, ch := selectionEnd.ch - endOffset })

/-- The text of the notice shown when the selection is empty. -/
def msgSelectText : Str := "请先选中文字".toList

/-- The text of the notice shown when no path is configured. -/
def msgSetPath : Str := "Please set the file path in the plugin settings.".toList

/-- The text of the notice shown when the path does not resolve. -/
def msgFileNotFound (filePath : Str) : Str :=
  "File ".toList ++ filePath ++ " not found.".toList

/-- The text of the notice shown on a match. -/
def msgIncluded (matchedLine : Option Str) : Str :=
  "✅✅已收录✅✅\n".toList ++ interpolate matchedLine

/-- The `editorCallback` of the command "Check Inclusion" (lines 19-66): the calls it
makes on the host, given the settings, the vault and the answers of the editor. -/
def checkInclusion (cm : CaseMap) (settings : Settings) (vault : Vault) (editor : Editor) :
    List Effect :=
  let selectedText := editor.getSelection
  if !(truthy (trim selectedText)) then
    [Effect.notice msgSelectText none]
  else
    let trimmedText := trim selectedText
    let sel := trimmedSelection editor
    Effect.setSelection sel.1 sel.2 ::
    (if !(truthy settings.filePath) then
      [Effect.notice msgSetPath none]
    else
      Effect.getAbstractFileByPath settings.filePath ::
      (match vault settings.filePath with
      | none => [Effect.notice (msgFileNotFound settings.filePath) none]
      | some fileBContent =>
        Effect.read settings.filePath ::
        (let searchString := settings.prefixSymbol ++ trimmedText ++ settings.suffixSymbol
         let lines := split '\n' fileBContent
         let matchedLine := lines.find? (fun line => includes line searchString)
         if truthyFound matchedLine then
           [Effect.notice (msgIncluded matchedLine) (some 5000)]
         else if truthy settings.notFoundHotkey then
           triggerHotkey cm settings.notFoundHotkey
         else [])))

/-! ## The editor document behind the positions

The editor is the host's, not the repository's. It is modelled the way line editors
work: a document is the list of its lines, a position `{ line, ch }` denotes an offset into
the text of the document, and a position whose `ch` lies outside its line is clipped to
the line (a `ch` past the end means the end of the line, a negative `ch` its start). -/

/-- The text of a document: its lines joined by line feeds. -/
def docText (doc : List Str) : Str := join '\n' doc

/-- Offset of the first code unit of line `n`. -/
def lineStart (doc : List Str) (n : Nat) : Nat :=
  ((doc.take n).map (fun l => l.length + 1)).sum

/-- Offset denoted by a position, clipped to the document and to the line. -/
def posToOffset (doc : List Str) (p : EditorPosition) : Nat :=
  if p.line < 0 then 0
  else match doc.get? p.line.toNat with
    | none => (docText doc).length
    | some l => lineStart doc p.line.toNat + min l.length p.ch.toNat

/-- The method `editor.getRange(a, b)`: the text between two positions. -/
def getRange (doc : List Str) (a b : EditorPosition) : Str :=
  ((docText doc).drop (posToOffset doc a)).take (posToOffset doc b - posToOffset doc a)

/-- Is the position one of the document: an existing line and a `ch` within it? -/
def validPos (doc : List Str) (p : EditorPosition) : Bool :=
  0 ≤ p.line && 0 ≤ p.ch &&
  match doc.get? p.line.toNat with
  | none => false
  | some l => p.ch.toNat ≤ l.length

/-- The editor showing `doc` with the selection from `a` to `b`. -/
def editorOf (doc : List Str) (a b : EditorPosition) : Editor :=
  { getSelection := getRange doc a b, cursorFrom := a, cursorTo := b }

/-! ## Example data -/

/-- Settings of the scenarios of the specification. -/
def exSettings : Settings :=
  { filePath := "dict.md".toList, prefixSymbol := "[".toList, suffixSymbol := "]".toList,
    notFoundHotkey := "Ctrl+Shift+X".toList }

/-- A vault whose only file is `dict.md`. -/
def exVault : Vault := fun path =>
  if path = "dict.md".toList then some "foo: [cat] noun\nbar: dog".toList else none

/-- An editor with `" cat "` selected on the first line. -/
def exEditorCat : Editor :=
  { getSelection := " cat ".toList, cursorFrom := ⟨0, 0⟩, cursorTo := ⟨0, 5⟩ }

/-- An editor with `" bird "` selected on the first line. -/
def exEditorBird : Editor :=
  { getSelection := " bird ".toList, cursorFrom := ⟨0, 0⟩, cursorTo := ⟨0, 6⟩ }

/-- An editor with only blanks selected. -/
def exEditorBlank : Editor :=
  { getSelection := " \t ".toList, cursorFrom := ⟨0, 0⟩, cursorTo := ⟨0, 3⟩ }

/-- Settings with a fallback hotkey but no path. -/
def exSettingsNoPath : Settings :=
  { filePath := [], prefixSymbol := "[".toList, suffixSymbol := "]".toList,
    notFoundHotkey := "Ctrl+Shift+X".toList }

/-- The key-down event of the numeric-pad plus key, no modifier held. -/
def exPlusEvent : KeyboardEvent :=
  { type := "keydown".toList, key := "+".toList, ctrlKey := false, shiftKey := false,
    altKey := false, metaKey := false, bubbles := true, cancelable := true }

/-- The key-down event of the space bar with Ctrl held. -/
def exCtrlSpaceEvent : KeyboardEvent :=
  { type := "keydown".toList, key := " ".toList, ctrlKey := true, shiftKey := false,
    altKey := false, metaKey := false, bubbles := true, cancelable := true }

/-- The key-down event of the key `k` with Ctrl and Alt held. -/
def exCtrlAltKEvent : KeyboardEvent :=
  { type := "keydown".toList, key := "k".toList, ctrlKey := true, shiftKey := false,
    altKey := true, metaKey := false, bubbles := true, cancelable := true }

/-- A vault whose file `dict.md` holds the two lines `a` and `b`. -/
def exVaultAB : Vault := fun path =>
  if path = "dict.md".toList then some "a\nb".toList else none

/-- Settings with the path `dict.md`, no affixes and the fallback hotkey `Ctrl+Shift+X`. -/
def exSettingsPlain : Settings :=
  { filePath := "dict.md".toList, prefixSymbol := [], suffixSymbol := [],
    notFoundHotkey := "Ctrl+Shift+X".toList }

/-- An editor whose selection `a⏎b` spans two lines. -/
def exEditorTwoLines : Editor :=
  { getSelection := "a\nb".toList, cursorFrom := ⟨0, 0⟩, cursorTo := ⟨1, 1⟩ }

/-- The document with the two lines `"a "` and `"b"`. -/
def exDocAB : List Str := ["a ".toList, "b".toList]

/-- The editor showing `exDocAB` with the selection from line 0, ch 1 to line 1, ch 1:
the text `" ⏎b"`. -/
def exEditorAcrossLines : Editor := editorOf exDocAB ⟨0, 1⟩ ⟨1, 1⟩

/-! ## Basic facts about the string primitives -/

theorem truthy_iff (s : Str) : truthy s = true ↔ s ≠ [] := by
  cases s <;> simp [truthy]

theorem includes_iff (s needle : Str) : includes s needle = true ↔ needle <:+: s := by
  induction s with
  | nil =>
    cases needle <;> simp [includes]
  | cons c cs ih =>
    rw [includes, Bool.or_eq_true, ih, List.isPrefixOf_iff_prefix, List.infix_cons_iff]

theorem trimStart_of_all_white (s : Str) (h : ∀ c ∈ s, isWhiteSpace c = true) :
    trimStart s = [] := by
  unfold trimStart
  induction s with
  | nil => rfl
  | cons c cs ih =>
    have hc : isWhiteSpace c = true := h c (List.mem_cons_self _ _)
    rw [List.dropWhile_cons_of_pos hc]
    exact ih (fun x hx => h x (List.mem_cons_of_mem _ hx))

theorem trim_of_all_white (s : Str) (h : ∀ c ∈ s, isWhiteSpace c = true) : trim s = [] := by
  unfold trim
  rw [trimStart_of_all_white s h]
  rfl

theorem find_first {α : Type} (p : α → Bool) (pre post : List α) (l : α)
    (hl : p l = true) (hpre : ∀ x ∈ pre, p x = false) :
    (pre ++ l :: post).find? p = some l := by
  induction pre with
  | nil => simp [List.find?, hl]
  | cons a as ih =>
    have ha : p a = false := hpre a (List.mem_cons_self _ _)
    simp only [List.cons_append, List.find?, ha]
    exact ih (fun x hx => hpre x (List.mem_cons_of_mem _ hx))

theorem find_none {α : Type} (p : α → Bool) (xs : List α) (h : ∀ x ∈ xs, p x = false) :
    xs.find? p = none := by
  induction xs with
  | nil => rfl
  | cons a as ih =>
    have ha : p a = false := h a (List.mem_cons_self _ _)
    simp only [List.find?, ha]
    exact ih (fun x hx => h x (List.mem_cons_of_mem _ hx))

theorem ne_nil_of_infix {needle line : Str} (hn : needle ≠ []) (h : needle <:+: line) :
    line ≠ [] := by
  intro hl
  subst hl
  exact hn (List.eq_nil_of_infix_nil h)

theorem needle_ne_nil (a t b : Str) (ht : t ≠ []) : a ++ t ++ b ≠ [] := by
  intro h
  rcases List.append_eq_nil.mp h with ⟨h1, _⟩
  exact ht (List.append_eq_nil.mp h1).2

/-- The outcome of lines 54-65, after the file has been read. -/
theorem checkInclusion_scan (cm : CaseMap) (settings : Settings) (vault : Vault)
    (editor : Editor) (content : Str)
    (hsel : trim editor.getSelection ≠ [])
    (hpath : settings.filePath ≠ [])
    (hfile : vault settings.filePath = some content) :
    checkInclusion cm settings vault editor =
      Effect.setSelection (trimmedSelection editor).1 (trimmedSelection editor).2 ::
      Effect.getAbstractFileByPath settings.filePath ::
      Effect.read settings.filePath ::
      (if truthyFound ((split '\n' content).find? (fun line => includes line
          (settings.prefixSymbol ++ trim editor.getSelection ++ settings.suffixSymbol))) then
         [Effect.notice (msgIncluded ((split '\n' content).find? (fun line => includes line
          (settings.prefixSymbol ++ trim editor.getSelection ++ settings.suffixSymbol))))
            (some 5000)]
       else if truthy settings.notFoundHotkey then
         triggerHotkey cm settings.notFoundHotkey
       else []) := by
  have h1 : truthy (trim editor.getSelection) = true := (truthy_iff _).mpr hsel
  have h2 : truthy settings.filePath = true := (truthy_iff _).mpr hpath
  simp only [checkInclusion, h1, h2, hfile, Bool.not_true, Bool.false_eq_true, if_false]

/-! ## `split` and `join` -/

theorem split_ne_nil (sep : Char) (s : Str) : split sep s ≠ [] := by
  induction s with
  | nil => simp [split]
  | cons c cs ih =>
    unfold split
    split
    · simp
    · cases h : split sep cs with
      | nil => exact absurd h ih
      | cons l ls => simp

theorem split_of_not_mem (sep : Char) (s : Str) (h : sep ∉ s) : split sep s = [s] := by
  induction s with
  | nil => rfl
  | cons c cs ih =>
    have hc : c ≠ sep := fun e => h (e ▸ List.mem_cons_self _ _)
    have hcs : sep ∉ cs := fun m => h (List.mem_cons_of_mem _ m)
    simp [split, hc, ih hcs]

theorem split_append_sep (sep : Char) (a b : Str) (h : sep ∉ a) :
    split sep (a ++ sep :: b) = a :: split sep b := by
  induction a with
  | nil => simp [split]
  | cons c cs ih =>
    have hc : c ≠ sep := fun e => h (e ▸ List.mem_cons_self _ _)
    have hcs : sep ∉ cs := fun m => h (List.mem_cons_of_mem _ m)
    simp [split, hc, ih hcs]

theorem split_join (sep : Char) (ls : List Str) (l : Str)
    (h : ∀ x ∈ ls ++ [l], sep ∉ x) : split sep (join sep (ls ++ [l])) = ls ++ [l] := by
  induction ls with
  | nil =>
    simp only [List.nil_append, join]
    exact split_of_not_mem sep l (h l (by simp))
  | cons a as ih =>
    have ha : sep ∉ a := h a (by simp)
    have has : ∀ x ∈ as ++ [l], sep ∉ x := fun x hx => h x (by simp at hx ⊢; tauto)
    cases hrest : as ++ [l] with
    | nil => simp at hrest
    | cons t rest =>
      have : (a :: as) ++ [l] = a :: t :: rest := by simp [hrest]
      rw [this, join, split_append_sep sep a _ ha, ← hrest, ih has]

theorem join_split (sep : Char) (s : Str) : join sep (split sep s) = s := by
  induction s with
  | nil => rfl
  | cons c cs ih =>
    unfold split
    split
    · rename_i hc
      cases h : split sep cs with
      | nil => exact absurd h (split_ne_nil sep cs)
      | cons l ls => rw [h] at ih; simp [join, ih, hc]
    · cases h : split sep cs with
      | nil => exact absurd h (split_ne_nil sep cs)
      | cons l ls =>
        rw [h] at ih
        cases ls with
        | nil => simpa [join] using ih
        | cons t rest => simp only [join] at ih ⊢; simp [← ih]

theorem not_mem_of_mem_split (sep : Char) (s : Str) : ∀ l ∈ split sep s, sep ∉ l := by
  induction s with
  | nil => simp [split]
  | cons c cs ih =>
    unfold split
    split
    · intro l hl
      rcases List.mem_cons.mp hl with rfl | hl
      · simp
      · exact ih l hl
    · rename_i hc
      cases h : split sep cs with
      | nil => exact absurd h (split_ne_nil sep cs)
      | cons l0 ls =>
        rw [h] at ih
        intro l hl
        rcases List.mem_cons.mp hl with rfl | hl
        · intro hm
          rcases List.mem_cons.mp hm with e | hm
          · exact hc e.symm
          · exact ih l0 (List.mem_cons_self _ _) hm
        · exact ih l (List.mem_cons_of_mem _ hl)

theorem mem_of_mem_split (sep : Char) (s : Str) : ∀ l ∈ split sep s, ∀ c ∈ l, c ∈ s := by
  intro l hl c hc
  have h := join_split sep s
  generalize split sep s = ls at hl h
  subst h
  induction ls with
  | nil => cases hl
  | cons a as ih =>
    cases as with
    | nil =>
      rcases List.mem_cons.mp hl with rfl | hl
      · simpa [join] using hc
      · cases hl
    | cons t rest =>
      simp only [join, List.mem_append, List.mem_cons]
      rcases List.mem_cons.mp hl with rfl | hl
      · exact Or.inl hc
      · exact Or.inr (Or.inr (ih hl))

/-! ## Objects and the event init -/

theorem Obj.get_set (o : Obj) (k q : Str) (v : Value) :
    (o.set k v).get q = if k = q then v else o.get q := by
  induction o with
  | nil => simp [Obj.set, Obj.get]
  | cons p rest ih =>
    obtain ⟨k0, v0⟩ := p
    by_cases h0 : k0 = k
    · subst h0
      by_cases hq : k0 = q <;> simp [Obj.set, Obj.get, hq]
    · by_cases hq : k0 = q
      · subst hq
        have : ¬ k = k0 := fun e => h0 e.symm
        simp [Obj.set, Obj.get, h0, this]
      · simp [Obj.set, Obj.get, h0, hq, ih]

theorem Obj.key_of_mem_set (o : Obj) (k : Str) (v : Value) :
    ∀ p ∈ o.set k v, p.1 = k ∨ p.1 ∈ o.map Prod.fst := by
  induction o with
  | nil => intro p hp; simp [Obj.set] at hp; simp [hp]
  | cons p0 rest ih =>
    obtain ⟨k0, v0⟩ := p0
    intro p hp
    by_cases h0 : k0 = k
    · simp only [Obj.set, h0, if_true, List.mem_cons] at hp
      rcases hp with rfl | hp
      · exact Or.inl rfl
      · exact Or.inr (by simp only [List.map_cons, List.mem_cons]; exact Or.inr (List.mem_map_of_mem _ hp))
    · simp only [Obj.set, h0, if_false, List.mem_cons] at hp
      rcases hp with rfl | hp
      · exact Or.inr (List.mem_map_of_mem Prod.fst (List.mem_cons_self _ _))
      · rcases ih p hp with h | h
        · exact Or.inl h
        · exact Or.inr (by simp only [List.map_cons, List.mem_cons]; exact Or.inr h)

theorem get_setFlags (modifiers : List Str) (o : Obj) (q : Str) :
    (setFlags modifiers o).get q =
      if modifiers.any (fun m => m ++ "Key".toList == q) then Value.bool true else o.get q := by
  induction modifiers generalizing o with
  | nil => simp [setFlags]
  | cons m ms ih =>
    have hstep : setFlags (m :: ms) o = setFlags ms (o.set (m ++ "Key".toList) (Value.bool true)) := rfl
    rw [hstep, ih, Obj.get_set, List.any_cons]
    by_cases h1 : m ++ "Key".toList = q
    · cases hany : ms.any (fun m => m ++ "Key".toList == q) <;>
        simp only [h1, beq_self_eq_true, Bool.true_or, if_true, Bool.false_eq_true, if_false]
    · have hb : (m ++ "Key".toList == q) = false := by
        cases hbb : (m ++ "Key".toList == q) with
        | false => rfl
        | true => exact absurd (beq_iff_eq.mp hbb) h1
      cases hany : ms.any (fun m => m ++ "Key".toList == q) <;>
        simp only [h1, hb, Bool.false_or, Bool.or_true, if_true, Bool.false_eq_true, if_false]

theorem key_of_mem_setFlags (modifiers : List Str) (o : Obj) :
    ∀ p ∈ setFlags modifiers o,
      p.1 ∈ o.map Prod.fst ∨ ∃ m ∈ modifiers, p.1 = m ++ "Key".toList := by
  induction modifiers generalizing o with
  | nil => intro p hp; exact Or.inl (List.mem_map_of_mem _ hp)
  | cons m ms ih =>
    intro p hp
    have hstep : setFlags (m :: ms) o = setFlags ms (o.set (m ++ "Key".toList) (Value.bool true)) := rfl
    rw [hstep] at hp
    rcases ih _ p hp with h | ⟨m1, hm1, e⟩
    · rcases List.mem_map.mp h with ⟨p1, hp1, e1⟩
      rcases Obj.key_of_mem_set o _ _ p1 hp1 with h2 | h2
      · exact Or.inr ⟨m, List.mem_cons_self _ _, by rw [← e1, h2]⟩
      · exact Or.inl (e1 ▸ h2)
    · exact Or.inr ⟨m1, List.mem_cons_of_mem _ hm1, e⟩

theorem pop_append_singleton (l : List Str) (x : Str) :
    pop (l ++ [x]) = (Value.string x, l) := by
  simp [pop]

/-- The event init in terms of the tokens of the descriptor. -/
theorem buildEventInit_of_split (cm : CaseMap) (hotkey : Str) (toks : List Str) (k : Str)
    (h : split '+' hotkey = toks ++ [k]) :
    buildEventInit cm hotkey =
      setFlags (toks.map (fun t => cm.toLowerCase (trim t)))
        [("key".toList, Value.string (cm.toLowerCase (trim k))),
         ("bubbles".toList, Value.bool true), ("cancelable".toList, Value.bool true)] := by
  simp only [buildEventInit, h, List.map_append, List.map_cons, List.map_nil,
    pop_append_singleton, setFlags]

/-! ## `trim` -/

theorem trimEnd_append_trailing (s : Str) :
    trimEnd s ++ (s.reverse.takeWhile isWhiteSpace).reverse = s := by
  unfold trimEnd
  rw [← List.reverse_append, List.takeWhile_append_dropWhile, List.reverse_reverse]

theorem leading_append_trimStart (s : Str) :
    s.takeWhile isWhiteSpace ++ trimStart s = s :=
  List.takeWhile_append_dropWhile _ _

/-- A string is its leading whitespace, its trimmed text and its trailing whitespace. -/
theorem trim_decomp (s : Str) :
    ∃ lead trail : Str, s = lead ++ trim s ++ trail ∧
      (∀ c ∈ lead, isWhiteSpace c = true) ∧ (∀ c ∈ trail, isWhiteSpace c = true) := by
  refine ⟨s.takeWhile isWhiteSpace, ((trimStart s).reverse.takeWhile isWhiteSpace).reverse,
    ?_, ?_, ?_⟩
  · unfold trim
    rw [List.append_assoc, trimEnd_append_trailing, leading_append_trimStart]
  · intro c hc
    exact List.mem_takeWhile_imp hc
  · intro c hc
    exact List.mem_takeWhile_imp (List.mem_reverse.mp hc)

theorem mem_of_mem_trim (s : Str) (c : Char) (h : c ∈ trim s) : c ∈ s := by
  obtain ⟨lead, trail, hs, _, _⟩ := trim_decomp s
  rw [hs]
  simp [h]

theorem trimEnd_of_getLast (s : Str) (h : ∀ c, s.getLast? = some c → isWhiteSpace c = false) :
    trimEnd s = s := by
  unfold trimEnd
  cases hr : s.reverse with
  | nil => simp [List.reverse_eq_nil_iff.mp hr]
  | cons c cs =>
    have hl : s.getLast? = some c := by
      rw [List.getLast?_eq_head?_reverse, hr]; rfl
    rw [List.dropWhile_cons_of_neg (by simp [h c hl]), ← hr, List.reverse_reverse]

theorem trimStart_of_head (s : Str) (h : ∀ c, s.head? = some c → isWhiteSpace c = false) :
    trimStart s = s := by
  unfold trimStart
  cases s with
  | nil => rfl
  | cons c cs => exact List.dropWhile_cons_of_neg (by simp [h c rfl])

theorem trim_eq_self (s : Str) (hh : ∀ c, s.head? = some c → isWhiteSpace c = false)
    (hl : ∀ c, s.getLast? = some c → isWhiteSpace c = false) : trim s = s := by
  unfold trim
  rw [trimStart_of_head s hh, trimEnd_of_getLast s hl]

/-! ## ASCII text and case -/

theorem toLower_eq_or (c : Char) : c.toLower = c ∨ (65 ≤ c.toNat ∧ c.toNat ≤ 90) := by
  unfold Char.toLower
  by_cases h : c.toNat ≥ 65 ∧ c.toNat ≤ 90
  · exact Or.inr h
  · left; simp only [h, if_false]

theorem isAscii_iff (s : Str) : isAscii s = true ↔ ∀ c ∈ s, c.toNat < 128 := by
  simp [isAscii]

theorem isAscii_trim (s : Str) (h : isAscii s = true) : isAscii (trim s) = true := by
  rw [isAscii_iff] at h ⊢
  exact fun c hc => h c (mem_of_mem_trim s c hc)

theorem isAscii_of_mem_split (sep : Char) (s : Str) (h : isAscii s = true) :
    ∀ l ∈ split sep s, isAscii l = true := by
  intro l hl
  rw [isAscii_iff] at h ⊢
  exact fun c hc => h c (mem_of_mem_split sep s l hl c hc)

/-- On an ASCII descriptor the event init does not depend on how the runtime treats
non-ASCII letters. -/
theorem buildEventInit_ascii (cm : CaseMap) (hotkey : Str) (h : isAscii hotkey = true) :
    buildEventInit cm hotkey = buildEventInit asciiCaseMap hotkey := by
  have hmap : (split '+' hotkey).map (fun key => cm.toLowerCase (trim key)) =
      (split '+' hotkey).map (fun key => asciiCaseMap.toLowerCase (trim key)) := by
    apply List.map_congr_left
    intro l hl
    exact cm.lower_ascii _ (isAscii_trim l (isAscii_of_mem_split '+' hotkey h l hl))
  simp only [buildEventInit, hmap]

theorem split_last (sep : Char) (pre k : Str) (hk : sep ∉ k) :
    ∃ t toks, split sep (pre ++ sep :: k) = (t :: toks) ++ [k] := by
  induction pre with
  | nil => exact ⟨[], [], by simp [split, split_of_not_mem sep k hk]⟩
  | cons c cs ih =>
    obtain ⟨t, toks, h⟩ := ih
    by_cases hc : c = sep
    · exact ⟨[], t :: toks, by simp [split, hc, h]⟩
    · exact ⟨c :: t, toks, by simp [split, hc, h]⟩

theorem flag_ne_of_not_suffix (m q : Str) (h : ¬ "Key".toList <:+ q) :
    (m ++ "Key".toList == q) = false := by
  cases hb : (m ++ "Key".toList == q) with
  | false => rfl
  | true =>
    have e : m ++ "Key".toList = q := beq_iff_eq.mp hb
    exact absurd (e ▸ List.suffix_append m _) h

theorem get_setFlags_of_not_suffix (modifiers : List Str) (o : Obj) (q : Str)
    (h : ¬ "Key".toList <:+ q) : (setFlags modifiers o).get q = o.get q := by
  rw [get_setFlags]
  have : modifiers.any (fun m => m ++ "Key".toList == q) = false := by
    rw [List.any_eq_false]
    intro m _
    rw [flag_ne_of_not_suffix m q h]
    exact Bool.false_ne_true
  rw [this]
  rfl

theorem hotkeyEvent_key_of_split (cm : CaseMap) (hotkey : Str) (toks : List Str) (k : Str)
    (h : split '+' hotkey = toks ++ [k]) :
    (hotkeyEvent cm hotkey).key = cm.toLowerCase (trim k) := by
  simp only [hotkeyEvent, newKeyboardEvent, buildEventInit_of_split cm hotkey toks k h]
  rw [get_setFlags_of_not_suffix _ _ _ (by decide)]
  simp [Obj.get, toDOMString]

/-! ## Modifier names -/

theorem Modifier.lower_range (md : Modifier) :
    ∀ c ∈ md.name.map Char.toLower, 97 ≤ c.toNat ∧ c.toNat ≤ 122 := by
  cases md <;> decide

theorem Modifier.lower_append_key (md : Modifier) :
    md.name.map Char.toLower ++ "Key".toList = md.flag := by
  cases md <;> decide

theorem Modifier.flag_beq (a b : Modifier) : (a.flag == b.flag) = decide (a = b) := by
  cases a <;> cases b <;> decide

theorem Modifier.lower_beq (a b : Modifier) :
    (a.name.map Char.toLower == b.name.map Char.toLower) = decide (a = b) := by
  cases a <;> cases b <;> decide

theorem namesModifier_map (m : Str) (md : Modifier) (h : namesModifier m md = true) :
    (trim m).map Char.toLower = md.name.map Char.toLower :=
  beq_iff_eq.mp h

theorem namesModifier_range (m : Str) (md : Modifier) (h : namesModifier m md = true) :
    ∀ c ∈ trim m, 97 ≤ c.toLower.toNat ∧ c.toLower.toNat ≤ 122 := by
  intro c hc
  apply md.lower_range
  rw [← namesModifier_map m md h]
  exact List.mem_map_of_mem _ hc

theorem namesModifier_lower (cm : CaseMap) (m : Str) (md : Modifier)
    (h : namesModifier m md = true) :
    cm.toLowerCase (trim m) = md.name.map Char.toLower := by
  rw [← namesModifier_map m md h]
  apply cm.lower_ascii
  rw [isAscii_iff]
  intro c hc
  have hr := namesModifier_range m md h c hc
  rcases toLower_eq_or c with e | e
  · rw [e] at hr; omega
  · omega

theorem plus_not_mem_of_namesModifier (m : Str) (md : Modifier)
    (h : namesModifier m md = true) : '+' ∉ m := by
  intro hm
  obtain ⟨lead, trail, hs, hlead, htrail⟩ := trim_decomp m
  rw [hs] at hm
  rcases List.mem_append.mp hm with hm | hm
  · rcases List.mem_append.mp hm with hm | hm
    · exact absurd (hlead _ hm) (by decide)
    · have hr := namesModifier_range m md h _ hm
      revert hr
      decide
  · exact absurd (htrail _ hm) (by decide)

theorem isModifierName_iff (m : Str) :
    isModifierName m = true ↔ ∃ md, namesModifier m md = true := by
  constructor
  · intro h
    simp only [isModifierName, List.any_cons, List.any_nil, Bool.or_false,
      Bool.or_eq_true] at h
    rcases h with h | h | h | h
    · exact ⟨_, h⟩
    · exact ⟨_, h⟩
    · exact ⟨_, h⟩
    · exact ⟨_, h⟩
  · rintro ⟨md, h⟩
    cases md <;> simp [isModifierName, h]

/-- For a token that spells a modifier, the property set by the loop is the flag of that
modifier and of no other. -/
theorem flag_of_modifier_token (cm : CaseMap) (m : Str) (hm : isModifierName m = true)
    (md : Modifier) :
    (cm.toLowerCase (trim m) ++ "Key".toList == md.flag) = namesModifier m md := by
  obtain ⟨md0, h0⟩ := (isModifierName_iff m).mp hm
  rw [namesModifier_lower cm m md0 h0, Modifier.lower_append_key, Modifier.flag_beq]
  unfold namesModifier
  rw [namesModifier_map m md0 h0, Modifier.lower_beq]

/-- A descriptor joined from modifier tokens and a key without `+` splits back into them. -/
theorem split_descriptor (ms : List Str) (k : Str)
    (hms : ∀ m ∈ ms, isModifierName m = true) (hk : '+' ∉ k) :
    split '+' (join '+' (ms ++ [k])) = ms ++ [k] := by
  apply split_join
  intro x hx
  rcases List.mem_append.mp hx with hx | hx
  · obtain ⟨md, h⟩ := (isModifierName_iff x).mp (hms x hx)
    exact plus_not_mem_of_namesModifier x md h
  · rw [List.mem_singleton.mp hx]; exact hk

/-- After the loop over modifier tokens, the flag of a modifier is `true` when some token
spells it and is left as it was otherwise. -/
theorem get_flag_setFlags (cm : CaseMap) (ms : List Str) (o : Obj)
    (hms : ∀ m ∈ ms, isModifierName m = true) (md : Modifier) :
    (setFlags (ms.map (fun t => cm.toLowerCase (trim t))) o).get md.flag =
      if ms.any (fun m => namesModifier m md) then Value.bool true else o.get md.flag := by
  rw [get_setFlags]
  have hany : (ms.map (fun t => cm.toLowerCase (trim t))).any
      (fun m => m ++ "Key".toList == md.flag) = ms.any (fun m => namesModifier m md) := by
    rw [Bool.eq_iff_iff, List.any_eq_true, List.any_eq_true]
    constructor
    · rintro ⟨t, ht, h⟩
      obtain ⟨m, hm, rfl⟩ := List.mem_map.mp ht
      exact ⟨m, hm, by rw [← flag_of_modifier_token cm m (hms m hm) md]; exact h⟩
    · rintro ⟨m, hm, h⟩
      exact ⟨_, List.mem_map_of_mem _ hm,
        by rw [flag_of_modifier_token cm m (hms m hm) md]; exact h⟩
  rw [hany]

/-! ## Substrings and line splitting -/

theorem infix_of_infix_append_sep (sep : Char) (s a r : Str) (hs : sep ∉ s)
    (h : s <:+: a ++ sep :: r) : s <:+: a ∨ s <:+: r := by
  obtain ⟨u, v, e⟩ := h
  rcases List.append_eq_append_iff.mp e with ⟨a1, ha, _⟩ | ⟨c1, hc, hv⟩
  · exact Or.inl ⟨u, a1, ha.symm⟩
  · rcases List.cons_eq_append_iff.mp hv with ⟨h1, _⟩ | ⟨c2, h1, h2⟩
    · subst h1
      exact Or.inl ⟨u, [], by simpa using hc⟩
    · subst h1
      rcases List.append_eq_append_iff.mp hc with ⟨a2, _, hs2⟩ | ⟨c3, hu, h3⟩
      · exact absurd (hs2 ▸ List.mem_append_right a2 (List.mem_cons_self _ _)) hs
      · rcases List.cons_eq_append_iff.mp h3 with ⟨_, h4⟩ | ⟨c4, _, h5⟩
        · exact absurd (h4 ▸ List.mem_cons_self _ _) hs
        · exact Or.inr ⟨c4, v, by rw [h2, h5]⟩

theorem infix_join_of_mem (sep : Char) (ls : List Str) (l : Str) (h : l ∈ ls) :
    l <:+: join sep ls := by
  induction ls with
  | nil => cases h
  | cons a as ih =>
    cases as with
    | nil =>
      rcases List.mem_cons.mp h with rfl | h
      · exact List.infix_refl _
      · cases h
    | cons t rest =>
      rcases List.mem_cons.mp h with rfl | h
      · exact (List.prefix_append _ _).isInfix
      · have hj : join sep (a :: t :: rest) = (a ++ [sep]) ++ join sep (t :: rest) := by
          simp [join]
        rw [hj]
        exact (ih h).trans (List.suffix_append _ _).isInfix

theorem exists_line_of_infix_join (sep : Char) (s : Str) (hs : sep ∉ s) (ls : List Str)
    (hne : ls ≠ []) (h : s <:+: join sep ls) : ∃ l ∈ ls, s <:+: l := by
  induction ls with
  | nil => exact absurd rfl hne
  | cons a as ih =>
    cases as with
    | nil => exact ⟨a, List.mem_cons_self _ _, by simpa [join] using h⟩
    | cons t rest =>
      have hj : join sep (a :: t :: rest) = a ++ sep :: join sep (t :: rest) := by
        simp [join]
      rw [hj] at h
      rcases infix_of_infix_append_sep sep s a _ hs h with h1 | h1
      · exact ⟨a, List.mem_cons_self _ _, h1⟩
      · obtain ⟨l, hl, hin⟩ := ih (by simp) h1
        exact ⟨l, List.mem_cons_of_mem _ hl, hin⟩

/-- Substring search line by line against substring search in the whole text. -/
theorem exists_line_infix_iff (sep : Char) (content s : Str) :
    (∃ line ∈ split sep content, s <:+: line) ↔ (sep ∉ s ∧ s <:+: content) := by
  constructor
  · rintro ⟨line, hl, hin⟩
    refine ⟨fun hm => not_mem_of_mem_split sep content line hl (hin.subset hm), ?_⟩
    have := infix_join_of_mem sep (split sep content) line hl
    rw [join_split] at this
    exact hin.trans this
  · rintro ⟨hs, hin⟩
    rw [← join_split sep content] at hin
    exact exists_line_of_infix_join sep s hs _ (split_ne_nil sep content) hin

/-! ## Positions and offsets -/

theorem trimEnd_append_of_ne_nil (x t : Str) (h : trimEnd t ≠ []) :
    trimEnd (x ++ t) = x ++ trimEnd t := by
  unfold trimEnd at h ⊢
  have hne : (t.reverse.dropWhile isWhiteSpace).isEmpty = false := by
    cases hd : t.reverse.dropWhile isWhiteSpace with
    | nil => rw [hd] at h; exact absurd rfl h
    | cons c cs => rfl
  rw [List.reverse_append, List.dropWhile_append, hne]
  simp

/-- The selected text is its leading whitespace, its trimmed text and its trailing
whitespace, and the two offsets of lines 31-32 are the lengths of the two runs. -/
theorem offsets_of_trim (s : Str) (h : trim s ≠ []) :
    ∃ lead trail : Str, s = lead ++ trim s ++ trail ∧
      lead.length + (trimStart s).length = s.length ∧
      trail.length + (trimEnd s).length = s.length ∧
      lead.length + (trim s).length + trail.length = s.length := by
  have h1 := leading_append_trimStart s
  have h2 : trimEnd s = s.takeWhile isWhiteSpace ++ trim s := by
    conv_lhs => rw [← h1]
    exact trimEnd_append_of_ne_nil _ _ h
  have h3 := trimEnd_append_trailing s
  refine ⟨s.takeWhile isWhiteSpace, (s.reverse.takeWhile isWhiteSpace).reverse, ?_, ?_, ?_, ?_⟩
  · rw [← h2, h3]
  · have := congrArg List.length h1
    simp only [List.length_append] at this
    omega
  · have := congrArg List.length h3
    simp only [List.length_append] at this
    omega
  · have := congrArg List.length h3
    rw [h2] at this
    simp only [List.length_append] at this
    omega

theorem lineStart_add_le (doc : List Str) (n : Nat) (l : Str) (h : doc.get? n = some l) :
    lineStart doc n + l.length ≤ (docText doc).length := by
  induction doc generalizing n with
  | nil => simp at h
  | cons a rest ih =>
    cases n with
    | zero =>
      simp only [List.get?_cons_zero, Option.some.injEq] at h
      subst h
      cases rest with
      | nil => simp [lineStart, docText, join]
      | cons t rest2 => simp [lineStart, docText, join]
    | succ m =>
      simp only [List.get?_cons_succ] at h
      have := ih m h
      cases rest with
      | nil => simp at h
      | cons t rest2 =>
        simp only [lineStart, docText, join, List.take_succ_cons, List.map_cons, List.sum_cons,
          List.length_append, List.length_cons] at this ⊢
        omega

theorem posToOffset_of_valid (doc : List Str) (p : EditorPosition)
    (h : validPos doc p = true) :
    ∃ l, doc.get? p.line.toNat = some l ∧ p.ch.toNat ≤ l.length ∧ 0 ≤ p.ch ∧
      posToOffset doc p = lineStart doc p.line.toNat + p.ch.toNat := by
  unfold validPos at h
  simp only [Bool.and_eq_true, decide_eq_true_eq] at h
  obtain ⟨⟨hl, hc⟩, hm⟩ := h
  cases hg : doc.get? p.line.toNat with
  | none => rw [hg] at hm; simp at hm
  | some l =>
    rw [hg] at hm
    simp only [decide_eq_true_eq] at hm
    refine ⟨l, rfl, hm, hc, ?_⟩
    unfold posToOffset
    rw [if_neg (by omega), hg]
    simp only
    rw [Nat.min_eq_right hm]


/-- Whenever the two positions computed by lines 31-37 are positions of the document, the
text between them is the trimmed selection. -/
theorem trimmedSelection_of_valid (doc : List Str) (a b : EditorPosition)
    (ha : validPos doc a = true) (hb : validPos doc b = true)
    (hab : posToOffset doc a ≤ posToOffset doc b)
    (hsel : trim (getRange doc a b) ≠ [])
    (hs : validPos doc (trimmedSelection (editorOf doc a b)).1 = true)
    (he : validPos doc (trimmedSelection (editorOf doc a b)).2 = true) :
    getRange doc (trimmedSelection (editorOf doc a b)).1 (trimmedSelection (editorOf doc a b)).2
      = trim (getRange doc a b) := by
  obtain ⟨la, hla, _, hac, hoa⟩ := posToOffset_of_valid doc a ha
  obtain ⟨lb, hlb, hbl, hbc, hob⟩ := posToOffset_of_valid doc b hb
  obtain ⟨ls, hls, _, hsc, hos⟩ := posToOffset_of_valid doc _ hs
  obtain ⟨le, hle, _, hec, hoe⟩ := posToOffset_of_valid doc _ he
  have hbt : posToOffset doc b ≤ (docText doc).length := by
    have := lineStart_add_le doc _ lb hlb
    omega
  obtain ⟨lead, trail, hdec, hlead, htrail, hsum⟩ := offsets_of_trim (getRange doc a b) hsel
  have hlen : (getRange doc a b).length = posToOffset doc b - posToOffset doc a := by
    simp only [getRange, List.length_take, List.length_drop]
    omega
  have hs1 : posToOffset doc (trimmedSelection (editorOf doc a b)).1
      = posToOffset doc a + lead.length := by
    rw [hos, hoa]
    simp only [trimmedSelection, editorOf] at hsc ⊢
    omega
  have he1 : posToOffset doc (trimmedSelection (editorOf doc a b)).2
      = posToOffset doc b - trail.length := by
    rw [hoe, hob]
    simp only [trimmedSelection, editorOf] at hec ⊢
    omega
  have hdrop : (docText doc).drop (posToOffset doc a)
      = getRange doc a b ++ (docText doc).drop (posToOffset doc b) := by
    have h := (List.take_append_drop (posToOffset doc b - posToOffset doc a)
      ((docText doc).drop (posToOffset doc a))).symm
    rw [List.drop_drop] at h
    have e : posToOffset doc a + (posToOffset doc b - posToOffset doc a) = posToOffset doc b := by
      omega
    rw [e] at h
    exact h
  conv_lhs => unfold getRange
  rw [hs1, he1, ← List.drop_drop, hdrop]
  have hT : posToOffset doc b - trail.length - (posToOffset doc a + lead.length)
      = (trim (getRange doc a b)).length := by omega
  rw [hT]
  generalize trim (getRange doc a b) = T at hdec ⊢
  rw [hdec]
  simp [List.append_assoc]

/-! ## Every descriptor is a list of tokens -/

theorem split_eq_concat (sep : Char) (s : Str) : ∃ toks k, split sep s = toks ++ [k] := by
  rcases List.eq_nil_or_concat (split sep s) with h | ⟨toks, k, h⟩
  · exact absurd h (split_ne_nil sep s)
  · exact ⟨toks, k, by rw [h, List.concat_eq_append]⟩

/-- Every string is a `+`-joined list of tokens none of which has a `+`. -/
theorem descriptor_tokens (hotkey : Str) :
    ∃ toks k, hotkey = join '+' (toks ++ [k]) ∧ (∀ t ∈ toks, '+' ∉ t) ∧ '+' ∉ k := by
  obtain ⟨toks, k, h⟩ := split_eq_concat '+' hotkey
  refine ⟨toks, k, ?_, ?_, ?_⟩
  · rw [← h, join_split]
  · intro t ht
    exact not_mem_of_mem_split '+' hotkey t (by rw [h]; exact List.mem_append_left _ ht)
  · exact not_mem_of_mem_split '+' hotkey k (by rw [h]; simp)

/-- The event dispatched by `triggerHotkey` is always a bubbling, cancelable key-down. -/
theorem hotkeyEvent_shape (cm : CaseMap) (hotkey : Str) :
    (hotkeyEvent cm hotkey).type = "keydown".toList ∧
    (hotkeyEvent cm hotkey).bubbles = true ∧ (hotkeyEvent cm hotkey).cancelable = true := by
  obtain ⟨toks, k, h⟩ := split_eq_concat '+' hotkey
  refine ⟨rfl, ?_, ?_⟩
  · show toBoolean ((buildEventInit cm hotkey).get "bubbles".toList) = true
    rw [buildEventInit_of_split cm hotkey toks k h,
      get_setFlags_of_not_suffix _ _ _ (by decide)]
    rfl
  · show toBoolean ((buildEventInit cm hotkey).get "cancelable".toList) = true
    rw [buildEventInit_of_split cm hotkey toks k h,
      get_setFlags_of_not_suffix _ _ _ (by decide)]
    rfl


/-! ## The "Check Inclusion" command -/

/-- C1: when the trimmed selection is non-empty, the path is configured and the file
resolves, with `needle = prefix + trim(selection) + suffix`: if `line` is the first line of
`content.split('\n')` having `needle` as a substring, the command shows the match notice
carrying exactly that line; if no line has it, the command takes the not-found branch (no
notice; the fallback hotkey when one is configured). -/
theorem checkInclusion_first_match (cm : CaseMap) (settings : Settings) (vault : Vault)
    (editor : Editor) (content : Str)
    (hsel : trim editor.getSelection ≠ [])
    (hpath : settings.filePath ≠ [])
    (hfile : vault settings.filePath = some content) :
    (∀ pre line post, split '\n' content = pre ++ line :: post →
        (settings.prefixSymbol ++ trim editor.getSelection ++ settings.suffixSymbol) <:+: line →
        (∀ x ∈ pre,
          ¬ (settings.prefixSymbol ++ trim editor.getSelection ++ settings.suffixSymbol) <:+: x) →
        checkInclusion cm settings vault editor =
          [Effect.setSelection (trimmedSelection editor).1 (trimmedSelection editor).2,
           Effect.getAbstractFileByPath settings.filePath,
           Effect.read settings.filePath,
           Effect.notice ("✅✅已收录✅✅\n".toList ++ line) (some 5000)]) ∧
    ((∀ x ∈ split '\n' content,
          ¬ (settings.prefixSymbol ++ trim editor.getSelection ++ settings.suffixSymbol) <:+: x) →
        checkInclusion cm settings vault editor =
          Effect.setSelection (trimmedSelection editor).1 (trimmedSelection editor).2 ::
          Effect.getAbstractFileByPath settings.filePath ::
          Effect.read settings.filePath ::
          (if settings.notFoundHotkey = [] then []
           else triggerHotkey cm settings.notFoundHotkey)) := by
  rw [checkInclusion_scan cm settings vault editor content hsel hpath hfile]
  constructor
  · intro pre line post hsplit hin hpre
    have hfind : (split '\n' content).find? (fun l => includes l
        (settings.prefixSymbol ++ trim editor.getSelection ++ settings.suffixSymbol))
        = some line := by
      rw [hsplit]
      apply find_first
      · exact (includes_iff _ _).mpr hin
      · intro x hx
        cases hi : includes x
            (settings.prefixSymbol ++ trim editor.getSelection ++ settings.suffixSymbol) with
        | false => rfl
        | true => exact absurd ((includes_iff _ _).mp hi) (hpre x hx)
    have hne : line ≠ [] := ne_nil_of_infix (needle_ne_nil _ _ _ hsel) hin
    rw [hfind]
    simp [truthyFound, (truthy_iff line).mpr hne, msgIncluded, interpolate]
  · intro hnone
    have hfind : (split '\n' content).find? (fun l => includes l
        (settings.prefixSymbol ++ trim editor.getSelection ++ settings.suffixSymbol))
        = none := by
      apply find_none
      intro x hx
      cases hi : includes x
          (settings.prefixSymbol ++ trim editor.getSelection ++ settings.suffixSymbol) with
      | false => rfl
      | true => exact absurd ((includes_iff _ _).mp hi) (hnone x hx)
    rw [hfind]
    cases hk : settings.notFoundHotkey with
    | nil => simp [truthyFound, truthy]
    | cons c cs => simp [truthyFound, truthy]

/-- C1 at the scenario of the specification: lines `foo: [cat] noun`, `bar: dog`, selection
`" cat "`, prefix `[`, suffix `]`. -/
theorem checkInclusion_first_match_witness :
    trim exEditorCat.getSelection ≠ [] ∧ exSettings.filePath ≠ [] ∧
    exVault exSettings.filePath = some "foo: [cat] noun\nbar: dog".toList ∧
    checkInclusion asciiCaseMap exSettings exVault exEditorCat =
      [Effect.setSelection ⟨0, 1⟩ ⟨0, 4⟩,
       Effect.getAbstractFileByPath "dict.md".toList,
       Effect.read "dict.md".toList,
       Effect.notice "✅✅已收录✅✅\nfoo: [cat] noun".toList (some 5000)] :=
  ⟨by decide, by decide, by decide,
    (checkInclusion_first_match asciiCaseMap exSettings exVault exEditorCat
      "foo: [cat] noun\nbar: dog".toList (by decide) (by decide) (by decide)).1
      [] "foo: [cat] noun".toList ["bar: dog".toList] (by decide) (by decide)
      (by intro x hx; cases hx)⟩

/-- C5: when the selected text is empty or made of whitespace only, whatever the
settings and the vault, the command makes exactly one call on its host, the notice
"请先选中文字" (please select text first): no `setSelection`, no path lookup, no read, no
hotkey. -/
theorem checkInclusion_blank_selection (cm : CaseMap) (settings : Settings) (vault : Vault)
    (editor : Editor) (hblank : ∀ c ∈ editor.getSelection, isWhiteSpace c = true) :
    checkInclusion cm settings vault editor = [Effect.notice "请先选中文字".toList none] := by
  have h : truthy (trim editor.getSelection) = false := by
    rw [trim_of_all_white _ hblank]; rfl
  simp only [checkInclusion, h, Bool.not_false, if_true, msgSelectText]

/-- C5 at a selection of blanks, with a valid path and a fallback hotkey configured. -/
theorem checkInclusion_blank_selection_witness :
    (∀ c ∈ exEditorBlank.getSelection, isWhiteSpace c = true) ∧
    checkInclusion asciiCaseMap exSettings exVault exEditorBlank =
      [Effect.notice "请先选中文字".toList none] :=
  ⟨by decide,
   checkInclusion_blank_selection asciiCaseMap exSettings exVault exEditorBlank (by decide)⟩

/-- C6: when the trimmed selection is non-empty and `filePath` is the empty string, the
command sets the trimmed selection, shows the notice "Please set the file path in the
plugin settings." and stops: the trace holds no path lookup, no read, no match notice and
no hotkey call, whatever `notFoundHotkey` is. -/
theorem checkInclusion_missing_path (cm : CaseMap) (settings : Settings) (vault : Vault)
    (editor : Editor) (hsel : trim editor.getSelection ≠ [])
    (hpath : settings.filePath = []) :
    checkInclusion cm settings vault editor =
      [Effect.setSelection (trimmedSelection editor).1 (trimmedSelection editor).2,
       Effect.notice "Please set the file path in the plugin settings.".toList none] ∧
    (checkInclusion cm settings vault editor).any
      (fun e => e.isVault || e.isHotkey) = false := by
  have h1 : truthy (trim editor.getSelection) = true := (truthy_iff _).mpr hsel
  have h2 : truthy settings.filePath = false := by rw [hpath]; rfl
  have h : checkInclusion cm settings vault editor =
      [Effect.setSelection (trimmedSelection editor).1 (trimmedSelection editor).2,
       Effect.notice "Please set the file path in the plugin settings.".toList none] := by
    simp only [checkInclusion, h1, h2, Bool.not_true, Bool.not_false, Bool.false_eq_true,
      if_false, if_true, msgSetPath]
  refine ⟨h, ?_⟩
  rw [h]
  rfl

/-- C6 at the selection `" cat "` with an empty path and a fallback hotkey configured. -/
theorem checkInclusion_missing_path_witness :
    trim exEditorCat.getSelection ≠ [] ∧ exSettingsNoPath.filePath = [] ∧
    checkInclusion asciiCaseMap exSettingsNoPath exVault exEditorCat =
      [Effect.setSelection ⟨0, 1⟩ ⟨0, 4⟩,
       Effect.notice "Please set the file path in the plugin settings.".toList none] :=
  ⟨by decide, rfl,
   (checkInclusion_missing_path asciiCaseMap exSettingsNoPath exVault exEditorCat
      (by decide) rfl).1⟩

/-- C7: in a run that reaches the scan (non-empty trimmed selection, configured path,
resolved file): if some line has the search string as a substring, then with `line` the
first such line the only notice of the run is the match notice, its text contains `line`,
its duration is 5000 ms, and no hotkey call is made; if no line has it, no notice is
shown, and when `notFoundHotkey` is non-empty the hotkey simulation runs exactly once on
it: the run is `setSelection`, the path lookup, the read, then one registration of
`notFoundHotkey`, one dispatch of the bubbling, cancelable key-down event built from it and
one unregistration timer of 100 ms; when `notFoundHotkey` is empty the run stops after the
read and makes no hotkey call at all. -/
theorem checkInclusion_outcome (cm : CaseMap) (settings : Settings) (vault : Vault)
    (editor : Editor) (content : Str)
    (hsel : trim editor.getSelection ≠ [])
    (hpath : settings.filePath ≠ [])
    (hfile : vault settings.filePath = some content) :
    (∀ pre line post, split '\n' content = pre ++ line :: post →
        (settings.prefixSymbol ++ trim editor.getSelection ++ settings.suffixSymbol) <:+: line →
        (∀ x ∈ pre,
          ¬ (settings.prefixSymbol ++ trim editor.getSelection ++ settings.suffixSymbol) <:+: x) →
        (checkInclusion cm settings vault editor).filter Effect.isNotice =
          [Effect.notice ("✅✅已收录✅✅\n".toList ++ line) (some 5000)] ∧
        line <:+: ("✅✅已收录✅✅\n".toList ++ line) ∧
        (checkInclusion cm settings vault editor).filter Effect.isHotkey = []) ∧
    ((∀ x ∈ split '\n' content,
          ¬ (settings.prefixSymbol ++ trim editor.getSelection ++ settings.suffixSymbol) <:+: x) →
        (checkInclusion cm settings vault editor).filter Effect.isNotice = [] ∧
        (settings.notFoundHotkey ≠ [] →
          checkInclusion cm settings vault editor =
            [Effect.setSelection (trimmedSelection editor).1 (trimmedSelection editor).2,
             Effect.getAbstractFileByPath settings.filePath,
             Effect.read settings.filePath,
             Effect.register settings.notFoundHotkey,
             Effect.dispatchEvent (hotkeyEvent cm settings.notFoundHotkey),
             Effect.setTimeoutUnregister settings.notFoundHotkey 100] ∧
          (checkInclusion cm settings vault editor).filter Effect.isHotkey =
            [Effect.register settings.notFoundHotkey,
             Effect.dispatchEvent (hotkeyEvent cm settings.notFoundHotkey),
             Effect.setTimeoutUnregister settings.notFoundHotkey 100] ∧
          (hotkeyEvent cm settings.notFoundHotkey).type = "keydown".toList ∧
          (hotkeyEvent cm settings.notFoundHotkey).bubbles = true ∧
          (hotkeyEvent cm settings.notFoundHotkey).cancelable = true) ∧
        (settings.notFoundHotkey = [] →
          checkInclusion cm settings vault editor =
            [Effect.setSelection (trimmedSelection editor).1 (trimmedSelection editor).2,
             Effect.getAbstractFileByPath settings.filePath,
             Effect.read settings.filePath] ∧
          (checkInclusion cm settings vault editor).filter Effect.isHotkey = [])) := by
  rw [checkInclusion_scan cm settings vault editor content hsel hpath hfile]
  constructor
  · intro pre line post hsplit hin hpre
    have hfind : (split '\n' content).find? (fun l => includes l
        (settings.prefixSymbol ++ trim editor.getSelection ++ settings.suffixSymbol))
        = some line := by
      rw [hsplit]
      apply find_first
      · exact (includes_iff _ _).mpr hin
      · intro x hx
        cases hi : includes x
            (settings.prefixSymbol ++ trim editor.getSelection ++ settings.suffixSymbol) with
        | false => rfl
        | true => exact absurd ((includes_iff _ _).mp hi) (hpre x hx)
    have hne : line ≠ [] := ne_nil_of_infix (needle_ne_nil _ _ _ hsel) hin
    rw [hfind]
    refine ⟨?_, ?_, ?_⟩
    · simp [truthyFound, (truthy_iff line).mpr hne, msgIncluded, interpolate,
        Effect.isNotice, List.filter]
    · exact (List.suffix_append _ _).isInfix
    · simp [truthyFound, (truthy_iff line).mpr hne, Effect.isHotkey, List.filter]
  · intro hnone
    have hfind : (split '\n' content).find? (fun l => includes l
        (settings.prefixSymbol ++ trim editor.getSelection ++ settings.suffixSymbol))
        = none := by
      apply find_none
      intro x hx
      cases hi : includes x
          (settings.prefixSymbol ++ trim editor.getSelection ++ settings.suffixSymbol) with
      | false => rfl
      | true => exact absurd ((includes_iff _ _).mp hi) (hnone x hx)
    rw [hfind]
    have hshape := hotkeyEvent_shape cm settings.notFoundHotkey
    cases hk : settings.notFoundHotkey with
    | nil => simp [truthyFound, truthy, Effect.isNotice, Effect.isHotkey, List.filter]
    | cons c cs =>
      rw [hk] at hshape
      simp [truthyFound, truthy, Effect.isNotice, Effect.isHotkey, List.filter, triggerHotkey,
        hshape]

/-- C7 at the not-found scenario of the specification: selection `" bird "`, fallback
hotkey `Ctrl+Shift+X`. -/
theorem checkInclusion_outcome_witness :
    trim exEditorBird.getSelection ≠ [] ∧ exSettings.filePath ≠ [] ∧
    exVault exSettings.filePath = some "foo: [cat] noun\nbar: dog".toList ∧
    (checkInclusion asciiCaseMap exSettings exVault exEditorBird).filter Effect.isNotice = [] ∧
    checkInclusion asciiCaseMap exSettings exVault exEditorBird =
      [Effect.setSelection ⟨0, 1⟩ ⟨0, 5⟩,
       Effect.getAbstractFileByPath "dict.md".toList,
       Effect.read "dict.md".toList,
       Effect.register "Ctrl+Shift+X".toList,
       Effect.dispatchEvent
         { type := "keydown".toList, key := "x".toList, ctrlKey := true, shiftKey := true,
           altKey := false, metaKey := false, bubbles := true, cancelable := true },
       Effect.setTimeoutUnregister "Ctrl+Shift+X".toList 100] :=
  have h := (checkInclusion_outcome asciiCaseMap exSettings exVault exEditorBird
      "foo: [cat] noun\nbar: dog".toList (by decide) (by decide) (by decide)).2 (by decide)
  ⟨by decide, by decide, by decide, h.1, (h.2.1 (by decide)).1⟩

/-! ## The hotkey simulation -/

/-- C2, as stated, fails: for the descriptor `Alt+F4` the key of the event built by
`triggerHotkey` is `f4`, not the trailing token `F4` as written (the runtime's case
mapping plays no part on this ASCII input). -/
theorem hotkeyEvent_key_not_verbatim :
    (hotkeyEvent asciiCaseMap "Alt+F4".toList).key = "f4".toList ∧
    (hotkeyEvent asciiCaseMap "Alt+F4".toList).key ≠ "F4".toList := by
  decide

/-- C2, amended: the key of the event built by `triggerHotkey` is the text after the last
`+` of the descriptor (the whole descriptor when it has no `+`), trimmed and lowercased.
`Alt+F4` gives key `f4` with only `altKey` true, `Q` gives key `q` with no modifier, and
`Ctrl+Shift+X` gives `ctrlKey` and `shiftKey` true and key `x`. -/
theorem hotkeyEvent_key_lowercased (cm : CaseMap) (pre k : Str) (hk : '+' ∉ k) :
    (hotkeyEvent cm k).key = cm.toLowerCase (trim k) ∧
    (hotkeyEvent cm (pre ++ '+' :: k)).key = cm.toLowerCase (trim k) ∧
    hotkeyEvent cm "Alt+F4".toList =
      { type := "keydown".toList, key := "f4".toList, ctrlKey := false, shiftKey := false,
        altKey := true, metaKey := false, bubbles := true, cancelable := true } ∧
    hotkeyEvent cm "Q".toList =
      { type := "keydown".toList, key := "q".toList, ctrlKey := false, shiftKey := false,
        altKey := false, metaKey := false, bubbles := true, cancelable := true } ∧
    hotkeyEvent cm "Ctrl+Shift+X".toList =
      { type := "keydown".toList, key := "x".toList, ctrlKey := true, shiftKey := true,
        altKey := false, metaKey := false, bubbles := true, cancelable := true } := by
  refine ⟨?_, ?_, ?_, ?_, ?_⟩
  · exact hotkeyEvent_key_of_split cm k [] k (by simp [split_of_not_mem '+' k hk])
  · obtain ⟨t, toks, h⟩ := split_last '+' pre k hk
    exact hotkeyEvent_key_of_split cm _ (t :: toks) k h
  · unfold hotkeyEvent
    rw [buildEventInit_ascii cm _ (by decide)]
    decide
  · unfold hotkeyEvent
    rw [buildEventInit_ascii cm _ (by decide)]
    decide
  · unfold hotkeyEvent
    rw [buildEventInit_ascii cm _ (by decide)]
    decide

/-- C2, amended, at the descriptor `Meta+ Tab`: the key is `tab`. -/
theorem hotkeyEvent_key_lowercased_witness :
    '+' ∉ " Tab".toList ∧
    (hotkeyEvent asciiCaseMap "Meta+ Tab".toList).key = "tab".toList :=
  ⟨by decide,
   (hotkeyEvent_key_lowercased asciiCaseMap "Meta".toList " Tab".toList (by decide)).2.1⟩

/-- C4, as stated, fails: for the malformed descriptor `Foo+X` the key of the event init is
`x`, not the whole string, and the property `fooKey` is set. -/
theorem buildEventInit_malformed_split :
    (buildEventInit asciiCaseMap "Foo+X".toList).get "key".toList = Value.string "x".toList ∧
    (buildEventInit asciiCaseMap "Foo+X".toList).get "key".toList
      ≠ Value.string "Foo+X".toList ∧
    (buildEventInit asciiCaseMap "Foo+X".toList).get "fooKey".toList = Value.bool true := by
  decide

/-- C4, amended: the parsing is total and has no notion of a malformed descriptor. Every
string is a `+`-joined list of tokens `t1+...+tn+k` (`n ≥ 0`, no `+` inside a token), and
for every such string the event init has `key` equal to `k`, the text after the last `+`,
trimmed and lowercased, `bubbles` and `cancelable` true, the property `<token>Key` true for
every token `ti` before the last `+` (trimmed and lowercased, whether or not it names a
modifier), and no other property. In particular a string without `+` (the empty string
included) gives exactly `{ key, bubbles: true, cancelable: true }` with the whole string
trimmed and lowercased as key; `Foo+X` gives key `x` and the property `fooKey`, `Ctrl+`
gives the empty key and `ctrlKey`. -/
theorem buildEventInit_any_descriptor (cm : CaseMap) (toks : List Str) (k : Str)
    (htoks : ∀ t ∈ toks, '+' ∉ t) (hk : '+' ∉ k) :
    (∀ hotkey : Str, ∃ ts key, hotkey = join '+' (ts ++ [key]) ∧
        (∀ t ∈ ts, '+' ∉ t) ∧ '+' ∉ key) ∧
    (buildEventInit cm (join '+' (toks ++ [k]))).get "key".toList
      = Value.string (cm.toLowerCase (trim k)) ∧
    (buildEventInit cm (join '+' (toks ++ [k]))).get "bubbles".toList = Value.bool true ∧
    (buildEventInit cm (join '+' (toks ++ [k]))).get "cancelable".toList = Value.bool true ∧
    (∀ t ∈ toks, (buildEventInit cm (join '+' (toks ++ [k]))).get
        (cm.toLowerCase (trim t) ++ "Key".toList) = Value.bool true) ∧
    (∀ p ∈ buildEventInit cm (join '+' (toks ++ [k])),
        p.1 ∈ ["key".toList, "bubbles".toList, "cancelable".toList] ∨
        ∃ t ∈ toks, p.1 = cm.toLowerCase (trim t) ++ "Key".toList) ∧
    buildEventInit cm k =
      [("key".toList, Value.string (cm.toLowerCase (trim k))),
       ("bubbles".toList, Value.bool true), ("cancelable".toList, Value.bool true)] ∧
    buildEventInit cm [] =
      [("key".toList, Value.string []),
       ("bubbles".toList, Value.bool true), ("cancelable".toList, Value.bool true)] ∧
    buildEventInit cm "Foo+X".toList =
      [("key".toList, Value.string "x".toList),
       ("bubbles".toList, Value.bool true), ("cancelable".toList, Value.bool true),
       ("fooKey".toList, Value.bool true)] ∧
    buildEventInit cm "Ctrl+".toList =
      [("key".toList, Value.string []),
       ("bubbles".toList, Value.bool true), ("cancelable".toList, Value.bool true),
       ("ctrlKey".toList, Value.bool true)] := by
  have hsplit : split '+' (join '+' (toks ++ [k])) = toks ++ [k] := by
    apply split_join
    intro x hx
    rcases List.mem_append.mp hx with hx | hx
    · exact htoks x hx
    · rw [List.mem_singleton.mp hx]; exact hk
  refine ⟨descriptor_tokens, ?_, ?_, ?_, ?_, ?_, ?_, ?_, ?_, ?_⟩
  · rw [buildEventInit_of_split cm _ toks k hsplit,
      get_setFlags_of_not_suffix _ _ _ (by decide)]
    rfl
  · rw [buildEventInit_of_split cm _ toks k hsplit,
      get_setFlags_of_not_suffix _ _ _ (by decide)]
    rfl
  · rw [buildEventInit_of_split cm _ toks k hsplit,
      get_setFlags_of_not_suffix _ _ _ (by decide)]
    rfl
  · intro t ht
    rw [buildEventInit_of_split cm _ toks k hsplit, get_setFlags]
    have hany : (toks.map (fun t => cm.toLowerCase (trim t))).any
        (fun m => m ++ "Key".toList == cm.toLowerCase (trim t) ++ "Key".toList) = true := by
      rw [List.any_eq_true]
      exact ⟨_, List.mem_map_of_mem _ ht, beq_self_eq_true _⟩
    rw [hany]
    rfl
  · intro p hp
    rw [buildEventInit_of_split cm _ toks k hsplit] at hp
    rcases key_of_mem_setFlags _ _ p hp with h | ⟨m, hm, e⟩
    · left
      simpa using h
    · right
      obtain ⟨t, ht, rfl⟩ := List.mem_map.mp hm
      exact ⟨t, ht, e⟩
  · rw [buildEventInit_of_split cm k [] k (by simp [split_of_not_mem '+' k hk])]
    rfl
  · rw [buildEventInit_ascii cm _ (by decide)]
    decide
  · rw [buildEventInit_ascii cm _ (by decide)]
    decide
  · rw [buildEventInit_ascii cm _ (by decide)]
    decide

/-- C4, amended, at the descriptor ` Foo + Bar +X` (tokens ` Foo `, ` Bar `, key `X`): the
key is `x`, the properties `fooKey` and `barKey` are set, and `ctrlKey` is not. -/
theorem buildEventInit_any_descriptor_witness :
    (∀ t ∈ [" Foo ".toList, " Bar ".toList], '+' ∉ t) ∧ '+' ∉ "X".toList ∧
    (buildEventInit asciiCaseMap " Foo + Bar +X".toList).get "key".toList
      = Value.string "x".toList ∧
    (∀ t ∈ [" Foo ".toList, " Bar ".toList],
      (buildEventInit asciiCaseMap " Foo + Bar +X".toList).get
        (asciiCaseMap.toLowerCase (trim t) ++ "Key".toList) = Value.bool true) ∧
    (buildEventInit asciiCaseMap " Foo + Bar +X".toList).get "fooKey".toList
      = Value.bool true ∧
    (buildEventInit asciiCaseMap " Foo + Bar +X".toList).get "ctrlKey".toList
      = Value.undefined :=
  have h := buildEventInit_any_descriptor asciiCaseMap [" Foo ".toList, " Bar ".toList]
    "X".toList (by decide) (by decide)
  ⟨by decide, by decide, h.2.1, h.2.2.2.2.1, by decide, by decide⟩

/-- C3: for the descriptor `m1+...+mn+k` (`n ≥ 0`) where every `mi` spells one of Ctrl,
Shift, Alt, Meta up to letter case and surrounding whitespace and `k` has no `+`, the event
init built by `triggerHotkey` has `key` equal to `k` trimmed and lowercased, `bubbles` and
`cancelable` true, each of `ctrlKey`, `shiftKey`, `altKey`, `metaKey` true exactly when
some `mi` spells that modifier (and absent otherwise), and no property besides these. -/
theorem buildEventInit_modifiers (cm : CaseMap) (ms : List Str) (k : Str)
    (hms : ∀ m ∈ ms, isModifierName m = true) (hk : '+' ∉ k) :
    (buildEventInit cm (join '+' (ms ++ [k]))).get "key".toList
      = Value.string (cm.toLowerCase (trim k)) ∧
    (buildEventInit cm (join '+' (ms ++ [k]))).get "bubbles".toList = Value.bool true ∧
    (buildEventInit cm (join '+' (ms ++ [k]))).get "cancelable".toList = Value.bool true ∧
    (∀ md : Modifier, (buildEventInit cm (join '+' (ms ++ [k]))).get md.flag =
        if ms.any (fun m => namesModifier m md) then Value.bool true else Value.undefined) ∧
    (∀ p ∈ buildEventInit cm (join '+' (ms ++ [k])),
        p.1 ∈ ["key".toList, "bubbles".toList, "cancelable".toList] ∨
        ∃ md : Modifier, p.1 = md.flag ∧ ms.any (fun m => namesModifier m md) = true) := by
  rw [buildEventInit_of_split cm _ ms k (split_descriptor ms k hms hk)]
  refine ⟨?_, ?_, ?_, ?_, ?_⟩
  · rw [get_setFlags_of_not_suffix _ _ _ (by decide)]; rfl
  · rw [get_setFlags_of_not_suffix _ _ _ (by decide)]; rfl
  · rw [get_setFlags_of_not_suffix _ _ _ (by decide)]; rfl
  · intro md
    rw [get_flag_setFlags cm ms _ hms md]
    have hbase : Obj.get [("key".toList, Value.string (cm.toLowerCase (trim k))),
        ("bubbles".toList, Value.bool true), ("cancelable".toList, Value.bool true)] md.flag
        = Value.undefined := by
      cases md <;> simp [Obj.get, Modifier.flag]
    rw [hbase]
  · intro p hp
    rcases key_of_mem_setFlags _ _ p hp with h | ⟨t, ht, e⟩
    · left
      simpa using h
    · right
      obtain ⟨m, hm, rfl⟩ := List.mem_map.mp ht
      obtain ⟨md, h⟩ := (isModifierName_iff m).mp (hms m hm)
      refine ⟨md, ?_, List.any_eq_true.mpr ⟨m, hm, h⟩⟩
      rw [e, namesModifier_lower cm m md h, Modifier.lower_append_key]

/-- C3 at the descriptor `" CTRL +shift+ X"`. -/
theorem buildEventInit_modifiers_witness :
    (∀ m ∈ [" CTRL ".toList, "shift".toList], isModifierName m = true) ∧
    '+' ∉ " X".toList ∧
    (buildEventInit asciiCaseMap " CTRL +shift+ X".toList).get "key".toList
      = Value.string "x".toList ∧
    (∀ md : Modifier, (buildEventInit asciiCaseMap " CTRL +shift+ X".toList).get md.flag =
        if [" CTRL ".toList, "shift".toList].any (fun m => namesModifier m md)
        then Value.bool true else Value.undefined) :=
  have h := buildEventInit_modifiers asciiCaseMap [" CTRL ".toList, "shift".toList]
    " X".toList (by decide) (by decide)
  ⟨by decide, by decide, h.1, h.2.2.2.1⟩

/-- C9, as stated, fails: the plus key is captured as the descriptor `+`, which
`triggerHotkey` parses into the empty key; the space bar with Ctrl is captured as
`Ctrl+ `, parsed into the empty key as well. -/
theorem capture_then_parse_loses_key :
    captureHotkey asciiCaseMap exPlusEvent = some "+".toList ∧
    (hotkeyEvent asciiCaseMap "+".toList).key = [] ∧
    (hotkeyEvent asciiCaseMap "+".toList).key ≠ asciiCaseMap.toLowerCase exPlusEvent.key ∧
    captureHotkey asciiCaseMap exCtrlSpaceEvent = some "Ctrl+ ".toList ∧
    (hotkeyEvent asciiCaseMap "Ctrl+ ".toList).key
      ≠ asciiCaseMap.toLowerCase exCtrlSpaceEvent.key := by
  decide

/-- C9, amended: for a key-down event whose upper-cased key (the text the capture handler
writes) is not a bare modifier, has no `+`, neither begins nor ends with whitespace and
lowercases to the lowercased key, the handler stores a descriptor from which
`triggerHotkey` builds an event with the same `ctrlKey`, `shiftKey`, `altKey` and
`metaKey` as the captured event and with the captured key lowercased. -/
theorem capture_then_parse (cm : CaseMap) (event : KeyboardEvent)
    (hmod : ["CONTROL".toList, "SHIFT".toList, "ALT".toList, "META".toList].contains
      (cm.toUpperCase event.key) = false)
    (hplus : '+' ∉ cm.toUpperCase event.key)
    (htrim : trim (cm.toUpperCase event.key) = cm.toUpperCase event.key)
    (hcase : cm.toLowerCase (cm.toUpperCase event.key) = cm.toLowerCase event.key) :
    ∃ d, captureHotkey cm event = some d ∧
      (hotkeyEvent cm d).ctrlKey = event.ctrlKey ∧
      (hotkeyEvent cm d).shiftKey = event.shiftKey ∧
      (hotkeyEvent cm d).altKey = event.altKey ∧
      (hotkeyEvent cm d).metaKey = event.metaKey ∧
      (hotkeyEvent cm d).key = cm.toLowerCase event.key := by
  obtain ⟨ty, key, c, s, a, m, b, cc⟩ := event
  simp only at hmod hplus htrim hcase
  have hms : ∀ t ∈ (if c then ["Ctrl".toList] else []) ++ (if s then ["Shift".toList] else [])
      ++ (if a then ["Alt".toList] else []) ++ (if m then ["Meta".toList] else []),
      isModifierName t = true := by
    cases c <;> cases s <;> cases a <;> cases m <;> decide
  have hsplit := split_descriptor _ (cm.toUpperCase key) hms hplus
  have hcap : captureHotkey cm (KeyboardEvent.mk ty key c s a m b cc) =
      some (join '+' ((if c then ["Ctrl".toList] else []) ++
        (if s then ["Shift".toList] else []) ++ (if a then ["Alt".toList] else []) ++
        (if m then ["Meta".toList] else []) ++ [cm.toUpperCase key])) := by
    simp only [captureHotkey, hmod, Bool.not_false, if_true]
  refine ⟨_, hcap, ?_⟩
  have hflag : ∀ md : Modifier,
      (buildEventInit cm (join '+' ((if c then ["Ctrl".toList] else []) ++
        (if s then ["Shift".toList] else []) ++ (if a then ["Alt".toList] else []) ++
        (if m then ["Meta".toList] else []) ++ [cm.toUpperCase key]))).get md.flag =
      if ((if c then ["Ctrl".toList] else []) ++ (if s then ["Shift".toList] else [])
        ++ (if a then ["Alt".toList] else []) ++ (if m then ["Meta".toList] else [])).any
        (fun t => namesModifier t md) then Value.bool true else Value.undefined := by
    intro md
    rw [buildEventInit_of_split cm _ _ _ hsplit, get_flag_setFlags cm _ _ hms md]
    have hbase : Obj.get [("key".toList, Value.string (cm.toLowerCase (trim (cm.toUpperCase key)))),
        ("bubbles".toList, Value.bool true), ("cancelable".toList, Value.bool true)] md.flag
        = Value.undefined := by
      cases md <;> simp [Obj.get, Modifier.flag]
    rw [hbase]
  have hc := hflag Modifier.ctrl
  have hs := hflag Modifier.shift
  have ha := hflag Modifier.alt
  have hm := hflag Modifier.meta
  simp only [Modifier.flag] at hc hs ha hm
  refine ⟨?_, ?_, ?_, ?_, ?_⟩
  · simp only [hotkeyEvent, newKeyboardEvent, hc]
    cases c <;> cases s <;> cases a <;> cases m <;> decide
  · simp only [hotkeyEvent, newKeyboardEvent, hs]
    cases c <;> cases s <;> cases a <;> cases m <;> decide
  · simp only [hotkeyEvent, newKeyboardEvent, ha]
    cases c <;> cases s <;> cases a <;> cases m <;> decide
  · simp only [hotkeyEvent, newKeyboardEvent, hm]
    cases c <;> cases s <;> cases a <;> cases m <;> decide
  · rw [hotkeyEvent_key_of_split cm _ _ _ hsplit, htrim, hcase]

/-- C9, amended, at the key `k` pressed with Ctrl and Alt: the descriptor is `Ctrl+Alt+K`
and the event built from it has Ctrl and Alt set and the key `k`. -/
theorem capture_then_parse_witness :
    captureHotkey asciiCaseMap exCtrlAltKEvent = some "Ctrl+Alt+K".toList ∧
    ∃ d, captureHotkey asciiCaseMap exCtrlAltKEvent = some d ∧
      (hotkeyEvent asciiCaseMap d).ctrlKey = true ∧
      (hotkeyEvent asciiCaseMap d).shiftKey = false ∧
      (hotkeyEvent asciiCaseMap d).altKey = true ∧
      (hotkeyEvent asciiCaseMap d).metaKey = false ∧
      (hotkeyEvent asciiCaseMap d).key = "k".toList :=
  ⟨by decide,
   capture_then_parse asciiCaseMap exCtrlAltKEvent (by decide) (by decide) (by decide)
     (by decide)⟩

/-! ## Line-by-line scan -/

/-- C10: some line of `content.split('\n')` includes the search string exactly when the
search string has no line feed and the whole content includes it. Consequently, in a run
that reaches the scan, a search string (prefix, trimmed selection, suffix) with a line feed
in it always ends in the not-found branch: no notice, and the fallback hotkey when one is
configured. -/
theorem scan_agrees_with_whole_search (content s : Str) (cm : CaseMap)
    (settings : Settings) (vault : Vault) (editor : Editor) :
    ((∃ line ∈ split '\n' content, includes line s = true) ↔
      ('\n' ∉ s ∧ includes content s = true)) ∧
    (trim editor.getSelection ≠ [] → settings.filePath ≠ [] →
      vault settings.filePath = some content →
      '\n' ∈ settings.prefixSymbol ++ trim editor.getSelection ++ settings.suffixSymbol →
      checkInclusion cm settings vault editor =
        Effect.setSelection (trimmedSelection editor).1 (trimmedSelection editor).2 ::
        Effect.getAbstractFileByPath settings.filePath ::
        Effect.read settings.filePath ::
        (if settings.notFoundHotkey = [] then []
         else triggerHotkey cm settings.notFoundHotkey)) := by
  constructor
  · simp only [includes_iff]
    exact exists_line_infix_iff '\n' content s
  · intro hsel hpath hfile hnl
    rw [checkInclusion_scan cm settings vault editor content hsel hpath hfile]
    have hfind : (split '\n' content).find? (fun l => includes l
        (settings.prefixSymbol ++ trim editor.getSelection ++ settings.suffixSymbol))
        = none := by
      apply find_none
      intro x hx
      cases hi : includes x
          (settings.prefixSymbol ++ trim editor.getSelection ++ settings.suffixSymbol) with
      | false => rfl
      | true =>
        exact absurd hnl ((exists_line_infix_iff '\n' content _).mp
          ⟨x, hx, (includes_iff _ _).mp hi⟩).1
    rw [hfind]
    cases hk : settings.notFoundHotkey with
    | nil => simp [truthyFound, truthy]
    | cons c cs => simp [truthyFound, truthy]

/-- C10 at the document `a⏎b` and the two-line selection `a⏎b`: the whole document
includes the selection, no line does, and the command ends in the fallback hotkey. -/
theorem scan_agrees_with_whole_search_witness :
    includes "a\nb".toList "a\nb".toList = true ∧
    '\n' ∈ exSettingsPlain.prefixSymbol ++ trim exEditorTwoLines.getSelection
      ++ exSettingsPlain.suffixSymbol ∧
    checkInclusion asciiCaseMap exSettingsPlain exVaultAB exEditorTwoLines =
      Effect.setSelection ⟨0, 0⟩ ⟨1, 1⟩ ::
      Effect.getAbstractFileByPath "dict.md".toList ::
      Effect.read "dict.md".toList ::
      triggerHotkey asciiCaseMap "Ctrl+Shift+X".toList :=
  ⟨by decide, by decide,
   (scan_agrees_with_whole_search "a\nb".toList "a\nb".toList asciiCaseMap exSettingsPlain
      exVaultAB exEditorTwoLines).2 (by decide) (by decide) (by decide) (by decide)⟩

/-! ## The trimmed selection -/

/-- C8 fails on a selection whose leading whitespace crosses a line break. In the document
`"a "`, `"b"` with the selection from line 0, ch 1 to line 1, ch 1 (the text `" ⏎b"`,
trimmed `"b"`), the command sets the selection to start at line 0, ch 3, which is past the
end of line 0 (length 2); clipped to the line, the new selection is `"⏎b"`, not `"b"`. -/
theorem trimmedSelection_across_lines :
    exEditorAcrossLines.getSelection = " \nb".toList ∧
    trim exEditorAcrossLines.getSelection = "b".toList ∧
    trimmedSelection exEditorAcrossLines = (⟨0, 3⟩, ⟨1, 1⟩) ∧
    (checkInclusion asciiCaseMap exSettings exVault exEditorAcrossLines).head?
      = some (Effect.setSelection ⟨0, 3⟩ ⟨1, 1⟩) ∧
    validPos exDocAB ⟨0, 3⟩ = false ∧
    getRange exDocAB (trimmedSelection exEditorAcrossLines).1
      (trimmedSelection exEditorAcrossLines).2 = "\nb".toList ∧
    getRange exDocAB (trimmedSelection exEditorAcrossLines).1
      (trimmedSelection exEditorAcrossLines).2 ≠ trim exEditorAcrossLines.getSelection := by
  decide

end CustomDict
